import Mathlib

/-!
Verification of the bisection polynomial solver in `src/Bisection.py`.

The numeric type is ℚ (exact arithmetic standing in for the script's
floating-point doubles).  `evaluate_poly` embeds `numpy.polyval` on a
descending-order coefficient list; `bisection_loop` embeds the `for i in
range(1, max_iter + 1)` loop of `bisection_method`, with the remaining
iteration count as structural fuel and the 1-indexed counter `i`, the
bounds `a`, `b` and the previous midpoint `prevc` threaded explicitly;
`bisection_method` embeds the whole function, returning `none` for the
Python `(None, None)` bracketing-failure result.
-/

set_option allowUnsafeReducibility true in
attribute [semireducible] Rat.add Rat.mul Rat.inv Rat.sub

/-- Polynomial evaluation as performed by `numpy.polyval`: Horner's rule
over the coefficients in descending-degree order, starting from 0. -/
def evaluate_poly (coefficients : List ℚ) (x : ℚ) : ℚ :=
  coefficients.foldl (fun acc coeff => acc * x + coeff) 0

/-- The `for` loop of `bisection_method` (lines 30-52 of the source).
`fuel` is the number of iterations still allowed; when it runs out the
Python loop falls through to `return c, max_iter`, i.e. `(prevc, max_iter)`
since the variable `c` then still holds the last midpoint. -/
def bisection_loop (coeffs : List ℚ) (tol : ℚ) (max_iter : ℕ) :
    ℕ → ℕ → ℚ → ℚ → ℚ → ℚ × ℕ
  | 0, _, _, _, prevc => (prevc, max_iter)
  | fuel + 1, i, a, b, prevc =>
    let c := (a + b) / 2
    let fc := evaluate_poly coeffs c
    let error := if 1 < i then |c - prevc| else |b - a|
    if |fc| < tol ∨ (error < tol ∧ 1 < i) then (c, i)
    else if evaluate_poly coeffs a * fc < 0 then
      bisection_loop coeffs tol max_iter fuel (i + 1) a c c
    else
      bisection_loop coeffs tol max_iter fuel (i + 1) c b c

/-- `bisection_method` (lines 11-52 of the source): check the bracketing
precondition `fa * fb >= 0` and either report failure (`none`) or run the
loop starting at iteration 1 with `c` initialised to `a`. -/
def bisection_method (coeffs : List ℚ) (a b tol : ℚ) (max_iter : ℕ) :
    Option (ℚ × ℕ) :=
  let fa := evaluate_poly coeffs a
  let fb := evaluate_poly coeffs b
  if 0 ≤ fa * fb then none
  else some (bisection_loop coeffs tol max_iter max_iter 1 a b a)

/-- The interval update performed by a non-converged iteration: with
midpoint `c`, keep `[a, c]` when `f(a) * f(c) < 0`, otherwise `[c, b]`. -/
def narrow (coeffs : List ℚ) (ab : ℚ × ℚ) : ℚ × ℚ :=
  let c := (ab.1 + ab.2) / 2
  if evaluate_poly coeffs ab.1 * evaluate_poly coeffs c < 0 then (ab.1, c)
  else (c, ab.2)

/-- Interval state at the start of the `(n+1)`-st loop iteration, assuming
no earlier iteration converged. -/
def stateN (coeffs : List ℚ) (a b : ℚ) : ℕ → ℚ × ℚ
  | 0 => (a, b)
  | n + 1 => narrow coeffs (stateN coeffs a b n)

/-- Midpoint computed by the `(n+1)`-st loop iteration. -/
def midAt (coeffs : List ℚ) (a b : ℚ) (n : ℕ) : ℚ :=
  ((stateN coeffs a b n).1 + (stateN coeffs a b n).2) / 2

/-- The `error` value printed at trace position `j` (0-indexed) when the
loop was entered with iteration counter `i`, bounds `a`, `b` and previous
midpoint `prevc`.  Faithful to the source for `1 ≤ i`. -/
def errAt (coeffs : List ℚ) (i : ℕ) (a b prevc : ℚ) : ℕ → ℚ
  | 0 => if 1 < i then |midAt coeffs a b 0 - prevc| else |b - a|
  | j + 1 => |midAt coeffs a b (j + 1) - midAt coeffs a b j|

/-- The convergence test of line 43 at trace position `j` (0-indexed; the
iteration counter there is `i + j`). -/
def testAt (coeffs : List ℚ) (tol : ℚ) (i : ℕ) (a b prevc : ℚ) (j : ℕ) : Prop :=
  |evaluate_poly coeffs (midAt coeffs a b j)| < tol ∨
    (errAt coeffs i a b prevc j < tol ∧ 1 < i + j)

instance (coeffs : List ℚ) (tol : ℚ) (i : ℕ) (a b prevc : ℚ) (j : ℕ) :
    Decidable (testAt coeffs tol i a b prevc j) := by
  unfold testAt
  infer_instance

lemma stateN_zero (coeffs : List ℚ) (a b : ℚ) : stateN coeffs a b 0 = (a, b) := rfl

lemma stateN_succ (coeffs : List ℚ) (a b : ℚ) (n : ℕ) :
    stateN coeffs a b (n + 1) = narrow coeffs (stateN coeffs a b n) := rfl

lemma stateN_shift (coeffs : List ℚ) (a b : ℚ) (j : ℕ) :
    stateN coeffs (narrow coeffs (a, b)).1 (narrow coeffs (a, b)).2 j =
      stateN coeffs a b (j + 1) := by
  induction j with
  | zero => simp [stateN]
  | succ j ih => simp [stateN_succ, ih]

lemma midAt_shift (coeffs : List ℚ) (a b : ℚ) (j : ℕ) :
    midAt coeffs (narrow coeffs (a, b)).1 (narrow coeffs (a, b)).2 j =
      midAt coeffs a b (j + 1) := by
  simp [midAt, stateN_shift]

lemma errAt_shift (coeffs : List ℚ) (i : ℕ) (a b prevc : ℚ) (hi : 1 ≤ i) (j : ℕ) :
    errAt coeffs (i + 1) (narrow coeffs (a, b)).1 (narrow coeffs (a, b)).2
      (midAt coeffs a b 0) j = errAt coeffs i a b prevc (j + 1) := by
  cases j with
  | zero =>
    have h1 : 1 < i + 1 := by omega
    simp [errAt, midAt_shift, h1]
  | succ j => simp [errAt, midAt_shift]

lemma testAt_shift (coeffs : List ℚ) (tol : ℚ) (i : ℕ) (a b prevc : ℚ)
    (hi : 1 ≤ i) (j : ℕ) :
    testAt coeffs tol (i + 1) (narrow coeffs (a, b)).1 (narrow coeffs (a, b)).2
      (midAt coeffs a b 0) j ↔ testAt coeffs tol i a b prevc (j + 1) := by
  unfold testAt
  rw [midAt_shift, errAt_shift coeffs i a b prevc hi]
  constructor <;> (rintro (h | ⟨h1, h2⟩) ; · exact Or.inl h) <;> exact Or.inr ⟨h1, by omega⟩

lemma bisection_loop_succ_conv (coeffs : List ℚ) (tol : ℚ) (M fuel i : ℕ)
    (a b prevc : ℚ) (h : testAt coeffs tol i a b prevc 0) :
    bisection_loop coeffs tol M (fuel + 1) i a b prevc = (midAt coeffs a b 0, i) := by
  have hm : midAt coeffs a b 0 = (a + b) / 2 := by simp [midAt, stateN]
  have hc : |evaluate_poly coeffs ((a + b) / 2)| < tol ∨
      ((if 1 < i then |(a + b) / 2 - prevc| else |b - a|) < tol ∧ 1 < i) := by
    rcases h with h | ⟨h1, h2⟩
    · exact Or.inl (hm ▸ h)
    · refine Or.inr ⟨?_, by omega⟩
      simpa [errAt, hm, Nat.lt_of_lt_of_le (by omega : 1 < i + 0) (le_refl _)] using
        (by simpa [errAt] using h1 : errAt coeffs i a b prevc 0 < tol)
  simp only [bisection_loop]
  rw [if_pos hc, hm]

lemma bisection_loop_succ_step (coeffs : List ℚ) (tol : ℚ) (M fuel i : ℕ)
    (a b prevc : ℚ) (h : ¬ testAt coeffs tol i a b prevc 0) :
    bisection_loop coeffs tol M (fuel + 1) i a b prevc =
      bisection_loop coeffs tol M fuel (i + 1) (narrow coeffs (a, b)).1
        (narrow coeffs (a, b)).2 (midAt coeffs a b 0) := by
  have hm : midAt coeffs a b 0 = (a + b) / 2 := by simp [midAt, stateN]
  have hc : ¬ (|evaluate_poly coeffs ((a + b) / 2)| < tol ∨
      ((if 1 < i then |(a + b) / 2 - prevc| else |b - a|) < tol ∧ 1 < i)) := by
    intro hc
    apply h
    rcases hc with h1 | ⟨h1, h2⟩
    · exact Or.inl (by rw [hm]; exact h1)
    · exact Or.inr ⟨by simpa [errAt, hm] using h1, by omega⟩
  simp only [bisection_loop]
  rw [if_neg hc, hm]
  by_cases hs : evaluate_poly coeffs a * evaluate_poly coeffs ((a + b) / 2) < 0
  · rw [if_pos hs]
    simp [narrow, hs]
  · rw [if_neg hs]
    simp [narrow, hs]

lemma bisection_loop_exhaust (coeffs : List ℚ) (tol : ℚ) (M : ℕ) :
    ∀ (fuel i : ℕ) (a b prevc : ℚ), 1 ≤ i →
      (∀ j < fuel + 1, ¬ testAt coeffs tol i a b prevc j) →
      bisection_loop coeffs tol M (fuel + 1) i a b prevc = (midAt coeffs a b fuel, M) := by
  intro fuel
  induction fuel with
  | zero =>
    intro i a b prevc hi h
    rw [bisection_loop_succ_step coeffs tol M 0 i a b prevc (h 0 (by omega))]
    simp [bisection_loop, midAt_shift]
  | succ fuel ih =>
    intro i a b prevc hi h
    rw [bisection_loop_succ_step coeffs tol M (fuel + 1) i a b prevc (h 0 (by omega))]
    rw [ih (i + 1) (narrow coeffs (a, b)).1 (narrow coeffs (a, b)).2
      (midAt coeffs a b 0) (by omega) ?_]
    · rw [midAt_shift]
    · intro j hj
      rw [testAt_shift coeffs tol i a b prevc hi j]
      exact h (j + 1) (by omega)

lemma bisection_loop_first_conv (coeffs : List ℚ) (tol : ℚ) (M : ℕ) :
    ∀ (j0 fuel i : ℕ) (a b prevc : ℚ), 1 ≤ i → j0 < fuel →
      (∀ j < j0, ¬ testAt coeffs tol i a b prevc j) →
      testAt coeffs tol i a b prevc j0 →
      bisection_loop coeffs tol M fuel i a b prevc = (midAt coeffs a b j0, i + j0) := by
  intro j0
  induction j0 with
  | zero =>
    intro fuel i a b prevc hi hfuel _ hconv
    obtain ⟨f, rfl⟩ : ∃ f, fuel = f + 1 := ⟨fuel - 1, by omega⟩
    rw [bisection_loop_succ_conv coeffs tol M f i a b prevc hconv]
    simp
  | succ j0 ih =>
    intro fuel i a b prevc hi hfuel hmin hconv
    obtain ⟨f, rfl⟩ : ∃ f, fuel = f + 1 := ⟨fuel - 1, by omega⟩
    rw [bisection_loop_succ_step coeffs tol M f i a b prevc (hmin 0 (by omega))]
    rw [ih f (i + 1) (narrow coeffs (a, b)).1 (narrow coeffs (a, b)).2
      (midAt coeffs a b 0) (by omega) (by omega) ?_ ?_]
    · rw [midAt_shift]
      congr 1
      omega
    · intro j hj
      rw [testAt_shift coeffs tol i a b prevc hi j]
      exact hmin (j + 1) (by omega)
    · rw [testAt_shift coeffs tol i a b prevc hi j0]
      exact hconv

lemma bisection_loop_shape (coeffs : List ℚ) (tol : ℚ) (M : ℕ) :
    ∀ (fuel i : ℕ) (a b prevc : ℚ), ∃ j, j ≤ fuel ∧
      (bisection_loop coeffs tol M (fuel + 1) i a b prevc = (midAt coeffs a b j, i + j) ∨
        bisection_loop coeffs tol M (fuel + 1) i a b prevc = (midAt coeffs a b j, M)) := by
  intro fuel
  induction fuel with
  | zero =>
    intro i a b prevc
    by_cases h : testAt coeffs tol i a b prevc 0
    · exact ⟨0, le_refl 0, Or.inl (by
        rw [bisection_loop_succ_conv coeffs tol M 0 i a b prevc h]; simp)⟩
    · refine ⟨0, le_refl 0, Or.inr ?_⟩
      rw [bisection_loop_succ_step coeffs tol M 0 i a b prevc h]
      simp [bisection_loop]
  | succ fuel ih =>
    intro i a b prevc
    by_cases h : testAt coeffs tol i a b prevc 0
    · exact ⟨0, by omega,
        Or.inl (by rw [bisection_loop_succ_conv coeffs tol M (fuel + 1) i a b prevc h]; simp)⟩
    · obtain ⟨j, hj, hres⟩ := ih (i + 1) (narrow coeffs (a, b)).1 (narrow coeffs (a, b)).2
        (midAt coeffs a b 0)
      refine ⟨j + 1, by omega, ?_⟩
      rw [bisection_loop_succ_step coeffs tol M (fuel + 1) i a b prevc h]
      rcases hres with hres | hres
      · exact Or.inl (by rw [hres, midAt_shift]; congr 1; omega)
      · exact Or.inr (by rw [hres, midAt_shift])

lemma stateN_bounds (coeffs : List ℚ) (a b : ℚ) (hab : a ≤ b) (n : ℕ) :
    a ≤ (stateN coeffs a b n).1 ∧ (stateN coeffs a b n).1 ≤ (stateN coeffs a b n).2 ∧
      (stateN coeffs a b n).2 ≤ b := by
  induction n with
  | zero => exact ⟨le_refl a, hab, le_refl b⟩
  | succ n ih =>
    obtain ⟨h1, h2, h3⟩ := ih
    rw [stateN_succ]
    unfold narrow
    by_cases hs : evaluate_poly coeffs (stateN coeffs a b n).1 *
        evaluate_poly coeffs (((stateN coeffs a b n).1 + (stateN coeffs a b n).2) / 2) < 0
    · rw [if_pos hs]
      refine ⟨h1, by linarith, by linarith⟩
    · rw [if_neg hs]
      refine ⟨by linarith, by linarith, h3⟩

lemma midAt_bounds (coeffs : List ℚ) (a b : ℚ) (hab : a ≤ b) (n : ℕ) :
    a ≤ midAt coeffs a b n ∧ midAt coeffs a b n ≤ b := by
  obtain ⟨h1, h2, h3⟩ := stateN_bounds coeffs a b hab n
  unfold midAt
  constructor <;> linarith

lemma stateN_sign_invariant (coeffs : List ℚ) (tol a b : ℚ) (htol : 0 < tol)
    (hbr : evaluate_poly coeffs a * evaluate_poly coeffs b < 0) (n : ℕ)
    (hrun : ∀ j < n, ¬ testAt coeffs tol 1 a b a j) :
    evaluate_poly coeffs (stateN coeffs a b n).1 *
      evaluate_poly coeffs (stateN coeffs a b n).2 < 0 := by
  induction n with
  | zero => exact hbr
  | succ n ih =>
    have ihn : evaluate_poly coeffs (stateN coeffs a b n).1 *
        evaluate_poly coeffs (stateN coeffs a b n).2 < 0 :=
      ih (fun j hj => hrun j (by omega))
    have hfc : evaluate_poly coeffs (midAt coeffs a b n) ≠ 0 := by
      intro h0
      apply hrun n (by omega)
      exact Or.inl (by rw [h0]; simpa using htol)
    rw [stateN_succ]
    unfold narrow
    by_cases hs : evaluate_poly coeffs (stateN coeffs a b n).1 *
        evaluate_poly coeffs (((stateN coeffs a b n).1 + (stateN coeffs a b n).2) / 2) < 0
    · rw [if_pos hs]
      exact hs
    · rw [if_neg hs]
      have hmid : ((stateN coeffs a b n).1 + (stateN coeffs a b n).2) / 2 =
          midAt coeffs a b n := rfl
      set p := evaluate_poly coeffs (stateN coeffs a b n).1 with hp
      set q := evaluate_poly coeffs (stateN coeffs a b n).2 with hq
      set fc := evaluate_poly coeffs (((stateN coeffs a b n).1 + (stateN coeffs a b n).2) / 2)
        with hfc2
      have hfcne : fc ≠ 0 := by rw [hfc2, hmid]; exact hfc
      have hpos : 0 < p * fc := lt_of_le_of_ne (not_lt.mp hs)
        (fun h => hfcne (by
          rcases mul_eq_zero.mp h.symm with hp0 | hc0
          · exact absurd (by rw [hp0]; ring_nf : p * q = 0) (ne_of_lt ihn)
          · exact hc0))
      by_contra hcq
      have hcq2 : 0 ≤ fc * q := not_lt.mp hcq
      have h1 : (p * fc) * (p * q) < 0 := mul_neg_of_pos_of_neg hpos ihn
      have h2 : (p * fc) * (p * q) = (p * p) * (fc * q) := by ring
      have h3 : 0 ≤ (p * p) * (fc * q) := mul_nonneg (mul_self_nonneg p) hcq2
      rw [h2] at h1
      exact absurd h1 (not_lt.mpr h3)

lemma foldl_horner (x : ℚ) (cs : List ℚ) (acc : ℚ) :
    cs.foldl (fun a c => a * x + c) acc =
      acc * x ^ cs.length + cs.foldl (fun a c => a * x + c) 0 := by
  induction cs generalizing acc with
  | nil => simp
  | cons c cs ih =>
    simp only [List.foldl_cons, List.length_cons]
    rw [ih (acc * x + c), ih (0 * x + c)]
    ring

lemma evaluate_poly_cons (c : ℚ) (cs : List ℚ) (x : ℚ) :
    evaluate_poly (c :: cs) x = c * x ^ cs.length + evaluate_poly cs x := by
  unfold evaluate_poly
  simp only [List.foldl_cons]
  rw [foldl_horner x cs (0 * x + c)]
  congr 1
  ring

lemma evaluate_poly_sum (coeffs : List ℚ) (x : ℚ) :
    evaluate_poly coeffs x =
      ∑ k ∈ Finset.range coeffs.length,
        coeffs.getD k 0 * x ^ (coeffs.length - 1 - k) := by
  induction coeffs with
  | nil => simp [evaluate_poly]
  | cons c cs ih =>
    rw [evaluate_poly_cons, ih, List.length_cons, Finset.sum_range_succ']
    simp only [List.getD_cons_succ, List.getD_cons_zero, Nat.add_sub_cancel, Nat.sub_zero]
    rw [add_comm]
    congr 1
    refine Finset.sum_congr rfl fun k _ => ?_
    congr 1
    congr 1
    omega

/-- C7: for every nonempty descending-order coefficient list and every
rational x, `evaluate_poly` returns the standard polynomial value
a_n * x^n + ... + a_0 (with n = length - 1). -/
theorem evaluate_poly_is_descending_sum (coeffs : List ℚ) (x : ℚ) (_h : coeffs ≠ []) :
    evaluate_poly coeffs x =
      ∑ k ∈ Finset.range coeffs.length,
        coeffs.getD k 0 * x ^ (coeffs.length - 1 - k) :=
  evaluate_poly_sum coeffs x

theorem evaluate_poly_is_descending_sum_witness :
    ([1, 0, -4] : List ℚ) ≠ [] ∧
      evaluate_poly [1, 0, -4] 3 =
        ∑ k ∈ Finset.range ([1, 0, -4] : List ℚ).length,
          ([1, 0, -4] : List ℚ).getD k 0 * (3 : ℚ) ^ (([1, 0, -4] : List ℚ).length - 1 - k) :=
  ⟨by decide, evaluate_poly_is_descending_sum [1, 0, -4] 3 (by decide)⟩

/-- C8: the evaluator is a pure deterministic function: two results of
evaluating the same coefficients at the same point are always equal. -/
theorem evaluate_poly_deterministic (coeffs : List ℚ) (x y1 y2 : ℚ)
    (h1 : y1 = evaluate_poly coeffs x) (h2 : y2 = evaluate_poly coeffs x) : y1 = y2 :=
  h1.trans h2.symm

theorem evaluate_poly_deterministic_witness : (5 : ℚ) = 5 :=
  evaluate_poly_deterministic [1, 0, -4] 3 5 5 (by decide) (by decide)

/-- C3: when `f(a) * f(b) >= 0` the solver reports the distinct no-result
value `none` without iterating; scenario 3 of the spec is the witness. -/
theorem bisection_bracketing_failure (coeffs : List ℚ) (a b tol : ℚ) (max_iter : ℕ)
    (h : 0 ≤ evaluate_poly coeffs a * evaluate_poly coeffs b) :
    bisection_method coeffs a b tol max_iter = none := by
  unfold bisection_method
  simp [h]

theorem bisection_bracketing_failure_witness :
    0 ≤ evaluate_poly [1, 1] 0 * evaluate_poly [1, 1] 5 ∧
      bisection_method [1, 1] 0 5 (1 / 10000) 50 = none :=
  ⟨by decide, bisection_bracketing_failure [1, 1] 0 5 (1 / 10000) 50 (by decide)⟩

/-- C10: with a positive tolerance, an iteration that fails the convergence
test (and therefore goes on to execute the narrowing step) cannot have
`f(c) = 0` at its midpoint: a zero midpoint value satisfies `|f(c)| < tol`
and is returned before any narrowing. -/
theorem narrowing_fc_nonzero (coeffs : List ℚ) (tol a b prevc : ℚ) (i j : ℕ)
    (htol : 0 < tol) (hno : ¬ testAt coeffs tol i a b prevc j) :
    evaluate_poly coeffs (midAt coeffs a b j) ≠ 0 := by
  intro h0
  exact hno (Or.inl (by rw [h0]; simpa using htol))

theorem narrowing_fc_nonzero_witness :
    ((0 : ℚ) < 1 / 10000 ∧ ¬ testAt [1, 0, -4] (1 / 10000) 1 0 3 0 0) ∧
      evaluate_poly [1, 0, -4] (midAt [1, 0, -4] 0 3 0) ≠ 0 :=
  ⟨⟨by decide, by decide⟩,
    narrowing_fc_nonzero [1, 0, -4] (1 / 10000) 0 3 0 1 0 (by decide) (by decide)⟩

/-- C4: an iteration that fails the convergence test narrows the interval by
comparing `f` recomputed at the current `a` against `f(c)`: it continues with
`b = c` exactly when `f(a) * f(c) < 0` (strict), and otherwise with `a = c`;
in particular a product equal to zero takes the `a = c` branch. -/
theorem narrowing_tie_break (coeffs : List ℚ) (tol : ℚ) (M fuel i : ℕ) (a b prevc : ℚ)
    (h : ¬ testAt coeffs tol i a b prevc 0) :
    (bisection_loop coeffs tol M (fuel + 1) i a b prevc =
      if evaluate_poly coeffs a * evaluate_poly coeffs ((a + b) / 2) < 0 then
        bisection_loop coeffs tol M fuel (i + 1) a ((a + b) / 2) ((a + b) / 2)
      else
        bisection_loop coeffs tol M fuel (i + 1) ((a + b) / 2) b ((a + b) / 2)) ∧
    (evaluate_poly coeffs a * evaluate_poly coeffs ((a + b) / 2) = 0 →
      bisection_loop coeffs tol M (fuel + 1) i a b prevc =
        bisection_loop coeffs tol M fuel (i + 1) ((a + b) / 2) b ((a + b) / 2)) := by
  have hstep := bisection_loop_succ_step coeffs tol M fuel i a b prevc h
  have hmid : midAt coeffs a b 0 = (a + b) / 2 := by simp [midAt, stateN]
  constructor
  · rw [hstep, hmid]
    by_cases hs : evaluate_poly coeffs a * evaluate_poly coeffs ((a + b) / 2) < 0
    · simp [narrow, hs]
    · simp [narrow, hs]
  · intro h0
    rw [hstep, hmid]
    have hs : ¬ evaluate_poly coeffs a * evaluate_poly coeffs ((a + b) / 2) < 0 := by
      rw [h0]
      exact lt_irrefl 0
    simp [narrow, hs]

theorem narrowing_tie_break_witness :
    (¬ testAt [1, 0] (1 / 2) 1 0 2 0 0) ∧
      (evaluate_poly [1, 0] 0 * evaluate_poly [1, 0] ((0 + 2) / 2) = 0 →
        bisection_loop [1, 0] (1 / 2) 5 (1 + 1) 1 0 2 0 =
          bisection_loop [1, 0] (1 / 2) 5 1 (1 + 1) ((0 + 2) / 2) 2 ((0 + 2) / 2)) :=
  ⟨by decide, (narrowing_tie_break [1, 0] (1 / 2) 5 1 1 0 2 0 (by decide)).2⟩

/-- C2: a solve that passes the bracketing check returns, inside the loop,
exactly at the first iteration whose convergence test holds: if the test
first holds at trace position j0 the result is `(midpoint at j0, j0 + 1)`;
and conversely any return with iteration index below `max_iter` happened at
an iteration whose test holds, all earlier tests failing. -/
theorem loop_returns_at_first_convergent (coeffs : List ℚ) (a b tol : ℚ) (max_iter : ℕ)
    (hbr : evaluate_poly coeffs a * evaluate_poly coeffs b < 0) :
    (∀ j0 < max_iter, (∀ j < j0, ¬ testAt coeffs tol 1 a b a j) →
      testAt coeffs tol 1 a b a j0 →
      bisection_method coeffs a b tol max_iter = some (midAt coeffs a b j0, j0 + 1)) ∧
    (∀ c i, bisection_method coeffs a b tol max_iter = some (c, i) → i < max_iter →
      testAt coeffs tol 1 a b a (i - 1) ∧ ∀ j < i - 1, ¬ testAt coeffs tol 1 a b a j) := by
  have hmethod : bisection_method coeffs a b tol max_iter =
      some (bisection_loop coeffs tol max_iter max_iter 1 a b a) := by
    unfold bisection_method
    rw [if_neg (not_le.mpr hbr)]
  constructor
  · intro j0 hj0 hmin hconv
    rw [hmethod,
      bisection_loop_first_conv coeffs tol max_iter j0 max_iter 1 a b a (le_refl 1) hj0
        hmin hconv]
    rw [Nat.add_comm]
  · intro c i hres hlt
    by_cases hex : ∃ j, j < max_iter ∧ testAt coeffs tol 1 a b a j
    · have hfind := Nat.find_spec hex
      have hmin : ∀ j < Nat.find hex, ¬ testAt coeffs tol 1 a b a j := by
        intro j hj
        intro ht
        exact Nat.find_min hex hj ⟨by omega, ht⟩
      rw [hmethod, bisection_loop_first_conv coeffs tol max_iter (Nat.find hex) max_iter
        1 a b a (le_refl 1) hfind.1 hmin hfind.2] at hres
      have : c = midAt coeffs a b (Nat.find hex) ∧ i = 1 + Nat.find hex := by
        have := Option.some.inj hres
        exact ⟨congrArg Prod.fst this.symm, congrArg Prod.snd this.symm⟩
      obtain ⟨hc, hi⟩ := this
      constructor
      · rw [hi]
        simpa using hfind.2
      · intro j hj
        exact hmin j (by omega)
    · push_neg at hex
      obtain ⟨f, rfl⟩ : ∃ f, max_iter = f + 1 := ⟨max_iter - 1, by omega⟩
      rw [hmethod, bisection_loop_exhaust coeffs tol (f + 1) f 1 a b a (le_refl 1)
        (fun j hj => hex j hj)] at hres
      have hi : f + 1 = i := congrArg Prod.snd (Option.some.inj hres)
      omega

theorem loop_returns_at_first_convergent_witness :
    evaluate_poly [1, -1] 0 * evaluate_poly [1, -1] 2 < 0 ∧
      ((∀ j0 < 50, (∀ j < j0, ¬ testAt [1, -1] (1 / 1000000) 1 0 2 0 j) →
        testAt [1, -1] (1 / 1000000) 1 0 2 0 j0 →
        bisection_method [1, -1] 0 2 (1 / 1000000) 50 =
          some (midAt [1, -1] 0 2 j0, j0 + 1)) ∧
      (∀ c i, bisection_method [1, -1] 0 2 (1 / 1000000) 50 = some (c, i) → i < 50 →
        testAt [1, -1] (1 / 1000000) 1 0 2 0 (i - 1) ∧
          ∀ j < i - 1, ¬ testAt [1, -1] (1 / 1000000) 1 0 2 0 j)) :=
  ⟨by decide, loop_returns_at_first_convergent [1, -1] 0 2 (1 / 1000000) 50 (by decide)⟩

/-- C5: when no iteration satisfies the convergence test, the solver returns
the midpoint computed on the final iteration together with `max_iter`. -/
theorem exhaustion_returns_final_midpoint (coeffs : List ℚ) (a b tol : ℚ)
    (max_iter : ℕ) (hbr : evaluate_poly coeffs a * evaluate_poly coeffs b < 0)
    (hmi : 1 ≤ max_iter)
    (hnoconv : ∀ j < max_iter, ¬ testAt coeffs tol 1 a b a j) :
    bisection_method coeffs a b tol max_iter =
      some (midAt coeffs a b (max_iter - 1), max_iter) := by
  unfold bisection_method
  rw [if_neg (not_le.mpr hbr)]
  obtain ⟨f, rfl⟩ : ∃ f, max_iter = f + 1 := ⟨max_iter - 1, by omega⟩
  rw [bisection_loop_exhaust coeffs tol (f + 1) f 1 a b a (le_refl 1) hnoconv]
  simp

theorem exhaustion_returns_final_midpoint_witness :
    (evaluate_poly [1, 0, -4] 0 * evaluate_poly [1, 0, -4] 3 < 0 ∧ (1 : ℕ) ≤ 2 ∧
      (∀ j < 2, ¬ testAt [1, 0, -4] (1 / 10000) 1 0 3 0 j)) ∧
      bisection_method [1, 0, -4] 0 3 (1 / 10000) 2 =
        some (midAt [1, 0, -4] 0 3 (2 - 1), 2) :=
  ⟨⟨by decide, by decide, by decide⟩,
    exhaustion_returns_final_midpoint [1, 0, -4] 0 3 (1 / 10000) 2 (by decide) (by decide)
      (by decide)⟩

/-- C6: with a positive tolerance and a bracketing start, the interval kept by
the loop still brackets: at the start of every iteration the loop actually
reaches, `f` at the two endpoints has a strictly negative product. -/
theorem interval_sign_invariant (coeffs : List ℚ) (a b tol : ℚ) (n : ℕ)
    (htol : 0 < tol)
    (hbr : evaluate_poly coeffs a * evaluate_poly coeffs b < 0)
    (hrun : ∀ j < n, ¬ testAt coeffs tol 1 a b a j) :
    evaluate_poly coeffs (stateN coeffs a b n).1 *
      evaluate_poly coeffs (stateN coeffs a b n).2 < 0 :=
  stateN_sign_invariant coeffs tol a b htol hbr n hrun

theorem interval_sign_invariant_witness :
    ((0 : ℚ) < 1 / 10000 ∧ evaluate_poly [1, 0, -4] 0 * evaluate_poly [1, 0, -4] 3 < 0 ∧
      (∀ j < 2, ¬ testAt [1, 0, -4] (1 / 10000) 1 0 3 0 j)) ∧
      evaluate_poly [1, 0, -4] (stateN [1, 0, -4] 0 3 2).1 *
        evaluate_poly [1, 0, -4] (stateN [1, 0, -4] 0 3 2).2 < 0 :=
  ⟨⟨by decide, by decide, by decide⟩,
    interval_sign_invariant [1, 0, -4] 0 3 (1 / 10000) 2 (by decide) (by decide) (by decide)⟩

/-- C9: with `a ≤ b` and a bracketing start, every midpoint of the narrowing
trace lies in the original interval, and a returned result `(c, i)` has
`c` in `[a, b]` and `1 ≤ i ≤ max_iter`. -/
theorem midpoints_and_result_in_range (coeffs : List ℚ) (a b tol : ℚ) (max_iter : ℕ)
    (hab : a ≤ b) (hmi : 1 ≤ max_iter)
    (hbr : evaluate_poly coeffs a * evaluate_poly coeffs b < 0) :
    (∀ n, a ≤ midAt coeffs a b n ∧ midAt coeffs a b n ≤ b) ∧
      ∀ c i, bisection_method coeffs a b tol max_iter = some (c, i) →
        a ≤ c ∧ c ≤ b ∧ 1 ≤ i ∧ i ≤ max_iter := by
  refine ⟨fun n => midAt_bounds coeffs a b hab n, ?_⟩
  intro c i hres
  unfold bisection_method at hres
  rw [if_neg (not_le.mpr hbr)] at hres
  obtain ⟨f, rfl⟩ : ∃ f, max_iter = f + 1 := ⟨max_iter - 1, by omega⟩
  obtain ⟨j, hj, hshape⟩ := bisection_loop_shape coeffs tol (f + 1) f 1 a b a
  obtain ⟨hm1, hm2⟩ := midAt_bounds coeffs a b hab j
  rcases hshape with hsh | hsh <;> rw [hsh] at hres
  · have heq := Option.some.inj hres
    have hc : midAt coeffs a b j = c := congrArg Prod.fst heq
    have hi : 1 + j = i := congrArg Prod.snd heq
    exact ⟨hc ▸ hm1, hc ▸ hm2, by omega, by omega⟩
  · have heq := Option.some.inj hres
    have hc : midAt coeffs a b j = c := congrArg Prod.fst heq
    have hi : f + 1 = i := congrArg Prod.snd heq
    exact ⟨hc ▸ hm1, hc ▸ hm2, by omega, by omega⟩

theorem midpoints_and_result_in_range_witness :
    ((0 : ℚ) ≤ 3 ∧ (1 : ℕ) ≤ 2 ∧
      evaluate_poly [1, 0, -4] 0 * evaluate_poly [1, 0, -4] 3 < 0) ∧
      ((∀ n, (0 : ℚ) ≤ midAt [1, 0, -4] 0 3 n ∧ midAt [1, 0, -4] 0 3 n ≤ 3) ∧
        ∀ c i, bisection_method [1, 0, -4] 0 3 (1 / 10000) 2 = some (c, i) →
          0 ≤ c ∧ c ≤ 3 ∧ 1 ≤ i ∧ i ≤ 2) :=
  ⟨⟨by decide, by decide, by decide⟩,
    midpoints_and_result_in_range [1, 0, -4] 0 3 (1 / 10000) 2 (by decide) (by decide)
      (by decide)⟩

/-- C1 (counterexample): on `x^2 - 4` over `[0, 3]` with `tol = 1/10000` and
`max_iter = 2` the bracketing check passes, `tol` and `max_iter` are
positive, yet the returned midpoint `9/4` satisfies neither `|f(c)| < tol`
nor any width-below-tol condition: every interval width reached during the
run (3, 3/2, 3/4) and both printed error values (3, 3/4) are at least
`tol`. -/
theorem returned_root_not_converged_cex :
    evaluate_poly [1, 0, -4] 0 * evaluate_poly [1, 0, -4] 3 < 0 ∧
      (0 : ℚ) < 1 / 10000 ∧ (0 : ℕ) < 2 ∧
      bisection_method [1, 0, -4] 0 3 (1 / 10000) 2 = some (9 / 4, 2) ∧
      ¬ |evaluate_poly [1, 0, -4] (9 / 4)| < 1 / 10000 ∧
      ¬ (stateN [1, 0, -4] 0 3 0).2 - (stateN [1, 0, -4] 0 3 0).1 < 1 / 10000 ∧
      ¬ (stateN [1, 0, -4] 0 3 1).2 - (stateN [1, 0, -4] 0 3 1).1 < 1 / 10000 ∧
      ¬ (stateN [1, 0, -4] 0 3 2).2 - (stateN [1, 0, -4] 0 3 2).1 < 1 / 10000 ∧
      ¬ errAt [1, 0, -4] 1 0 3 0 0 < 1 / 10000 ∧
      ¬ errAt [1, 0, -4] 1 0 3 0 1 < 1 / 10000 := by
  decide

/-- C1 (amended): under the bracketing precondition, with positive tolerance
and positive iteration budget, the solver always terminates and returns a
pair `(c, i)` with `1 ≤ i ≤ max_iter` where `c` is the midpoint of
iteration `i`; the returned `c` satisfies the convergence test triggering
first — `|f(c)| < tol`, or the midpoint-step error below `tol` after the
first iteration — unless the iteration budget was exhausted
(`i = max_iter`). -/
theorem bisection_terminates_within_budget (coeffs : List ℚ) (a b tol : ℚ)
    (max_iter : ℕ) (hbr : evaluate_poly coeffs a * evaluate_poly coeffs b < 0)
    (_htol : 0 < tol) (hmi : 1 ≤ max_iter) :
    ∃ c i, bisection_method coeffs a b tol max_iter = some (c, i) ∧
      1 ≤ i ∧ i ≤ max_iter ∧
      (|evaluate_poly coeffs c| < tol ∨
        (1 < i ∧ errAt coeffs 1 a b a (i - 1) < tol) ∨ i = max_iter) := by
  have hmethod : bisection_method coeffs a b tol max_iter =
      some (bisection_loop coeffs tol max_iter max_iter 1 a b a) := by
    unfold bisection_method
    rw [if_neg (not_le.mpr hbr)]
  by_cases hex : ∃ j, j < max_iter ∧ testAt coeffs tol 1 a b a j
  · have hfind := Nat.find_spec hex
    have hlt := hfind.1
    have hmin : ∀ j < Nat.find hex, ¬ testAt coeffs tol 1 a b a j := by
      intro j hj ht
      exact Nat.find_min hex hj ⟨by omega, ht⟩
    refine ⟨midAt coeffs a b (Nat.find hex), Nat.find hex + 1, ?_, by omega, by omega, ?_⟩
    · rw [hmethod, bisection_loop_first_conv coeffs tol max_iter (Nat.find hex) max_iter
        1 a b a (le_refl 1) hlt hmin hfind.2, Nat.add_comm]
    · rcases hfind.2 with h | ⟨h1, h2⟩
      · exact Or.inl h
      · refine Or.inr (Or.inl ⟨by omega, ?_⟩)
        simpa using h1
  · push_neg at hex
    obtain ⟨f, rfl⟩ : ∃ f, max_iter = f + 1 := ⟨max_iter - 1, by omega⟩
    refine ⟨midAt coeffs a b f, f + 1, ?_, by omega, le_refl _, Or.inr (Or.inr rfl)⟩
    rw [hmethod, bisection_loop_exhaust coeffs tol (f + 1) f 1 a b a (le_refl 1)
      (fun j hj => hex j hj)]

theorem bisection_terminates_within_budget_witness :
    (evaluate_poly [1, -1] 0 * evaluate_poly [1, -1] 2 < 0 ∧
      (0 : ℚ) < 1 / 1000000 ∧ (1 : ℕ) ≤ 50) ∧
      (∃ c i, bisection_method [1, -1] 0 2 (1 / 1000000) 50 = some (c, i) ∧
        1 ≤ i ∧ i ≤ 50 ∧
        (|evaluate_poly [1, -1] c| < 1 / 1000000 ∨
          (1 < i ∧ errAt [1, -1] 1 0 2 0 (i - 1) < 1 / 1000000) ∨ i = 50)) :=
  ⟨⟨by decide, by decide, by decide⟩,
    bisection_terminates_within_budget [1, -1] 0 2 (1 / 1000000) 50 (by decide) (by decide)
      (by decide)⟩
